import Mathlib

/-!
Verification of the core of the `stream`/`pipe` filter library.

The development shallowly embeds the Go sources:
* `StreamPkg` embeds the `stream` package (pipeline engine with the
  first-error-wins `filterErrors` box, `Sequence`, `ForEach`, `Contents`,
  `runFilter`, and the uniform reservoir `Sample`);
* `PipePkg` embeds the `pipe` package pieces the claims need
  (the order-preserving `MapConcurrent`, the deterministic hash-ranked
  `Sample`, and the batching `Xargs`).

Channels are modelled as explicit lists with a `closed` flag; goroutine
interleavings are modelled by explicit action schedules; random draws and
the hash function are explicit inputs.
-/

namespace StreamPkg

/-- Errors are opaque tokens; `Option Err` models Go's nilable `error`. -/
abbrev Err := String

/-- `filterErrors` records errors accumulated during the execution of a
filter (stream package).  The mutex is not modelled; calls to `record`
are linearized by it, so we model the sequence of critical sections. -/
structure filterErrors where
  err : Option Err
deriving DecidableEq, Repr

/-- `record` stores `err` only if `err != nil` and no error is stored yet:
`if err != nil { lock; if e.err == nil { e.err = err }; unlock }`. -/
def filterErrors.record (e : filterErrors) (x : Option Err) : filterErrors :=
  match x with
  | none => e
  | some _ => if e.err = none then { err := x } else e

/-- `getError` returns the stored error (under the mutex). -/
def filterErrors.getError (e : filterErrors) : Option Err := e.err

/-- Folding `record` over a linearized sequence of reported errors. -/
def recordAll (l : List (Option Err)) : filterErrors :=
  l.foldl filterErrors.record ⟨none⟩

/-- A filter, denotationally: fed its whole input stream, it produces its
output stream and an optional error (the value returned by `RunFilter`). -/
def Filter := List String → List String × Option Err

/-- The output/error trace of the chain of stages built by `Sequence`:
stage `i` consumes the full output of stage `i-1`, and the error each
stage returns is `record`ed into the shared `filterErrors` box. -/
def runChain (fs : List Filter) (input : List String) :
    List String × filterErrors :=
  fs.foldl (fun acc f => let r := f acc.1; (r.1, acc.2.record r.2)) (input, ⟨none⟩)

/-- `Sequence` (stream package): with exactly one filter it returns that
filter unchanged (`if len(filters) == 1 { return filters[0] }`); otherwise
it chains the filters through fresh channels, copies the last channel to
`arg.Out`, and returns `e.getError()`. -/
def Sequence : List Filter → Filter
  | [f] => f
  | fs => fun input =>
    let r := runChain fs input
    (r.1, r.2.getError)

/-- `ForEach` feeds a closed empty channel to `filter`, drains its output
(applying the caller's callback to each item) and returns the recorded
error.  Denotationally: run the filter on the empty input. -/
def ForEach (filter : Filter) : List String × Option Err := filter []

/-- `Contents` accumulates the items seen by `ForEach` and discards them
all (`result = nil`) when an error occurred. -/
def Contents (filters : List Filter) : List String × Option Err :=
  let r := ForEach (Sequence filters)
  match r.2 with
  | some e => ([], some e)
  | none => (r.1, none)

/-- A bounded channel: buffered items plus a closed flag.  Capacity and
blocking are irrelevant to the claims settled here. -/
structure Chan where
  buf : List String
  closed : Bool
deriving DecidableEq, Repr

/-- `close(c)`: Go panics when closing an already-closed channel, so the
model returns `none` in that case. -/
def closeChan (c : Chan) : Option Chan :=
  if c.closed then none else some { c with closed := true }

/-- `for _ = range in {}`: read and discard every remaining item. -/
def drainChan (c : Chan) : Chan := { c with buf := [] }

/-- The observable effect of one `f.RunFilter(arg)` call: the items it
wrote to `arg.Out` and the error it returned.  (What it read from
`arg.In` is irrelevant to `runFilter`'s own three steps.) -/
structure RunEffect where
  outs : List String
  err : Option Err
deriving DecidableEq, Repr

/-- `runFilter` (stream package):
`e.record(f.RunFilter(arg)); close(arg.Out); for _ = range arg.In {}`.
Returns the final error box, drained input channel and closed output
channel, or `none` if the close would panic. -/
def runFilter (eff : RunEffect) (e : filterErrors) (inC outC : Chan) :
    Option (filterErrors × Chan × Chan) :=
  let e1 := e.record eff.err
  match closeChan { outC with buf := outC.buf ++ eff.outs } with
  | none => none
  | some outC1 => some (e1, drainChan inC, outC1)

/-- One pseudo-random draw of the reservoir sampler, made explicit:
`u` models `r.Float32()` (idealized as an exact rational in `[0,1)`) and
`j` models `r.Intn(n)`. -/
structure RngDraw where
  u : ℚ
  j : Nat
deriving DecidableEq, Repr

/-- State of the reservoir sampling loop: the reservoir slice and the
0-based count `i` of items processed so far. -/
structure SampleState where
  reservoir : List String
  i : Nat
deriving DecidableEq, Repr

/-- One iteration of the `stream.Sample` loop:
if `i < n` append; else if `u < n/(i+1)` overwrite slot `j`; else drop. -/
def sampleStep (n : Nat) (st : SampleState) (s : String) (d : RngDraw) :
    SampleState :=
  if st.i < n then
    { reservoir := st.reservoir ++ [s], i := st.i + 1 }
  else if d.u < (n : ℚ) / ((st.i + 1 : Nat) : ℚ) then
    { reservoir := st.reservoir.set d.j s, i := st.i + 1 }
  else
    { reservoir := st.reservoir, i := st.i + 1 }

/-- The whole `stream.Sample(n)` loop over the input stream paired with
its (explicit) random draws. -/
def sampleRun (n : Nat) (xs : List (String × RngDraw)) : SampleState :=
  xs.foldl (fun st p => sampleStep n st p.1 p.2) ⟨[], 0⟩

/-- `stream.Sample(n)`: after the input exhausts, the reservoir contents
are emitted in order. -/
def Sample (n : Nat) (xs : List (String × RngDraw)) : List String :=
  (sampleRun n xs).reservoir

end StreamPkg

namespace PipePkg

/-- `parItem` (pipe.go): an input item tagged with its 0-based sequence
number, as produced by `MapConcurrent`'s reader goroutine. -/
structure parItem where
  index : Nat
  value : String
deriving DecidableEq, Repr

/-- The shared mutable state of one `MapConcurrent` run, plus the still
undispatched part of the `source` channel:
`source` holds the indexed items the reader has queued but no worker has
received yet; `inflight` holds the items some worker has received but not
yet published; `buffered` is the mutex-guarded map from sequence number to
computed result (as an association list); `nextIdx` is `next`; `out` is
the list of values sent to `arg.Out` so far. -/
structure MCState where
  source : List parItem
  inflight : List parItem
  buffered : List parItem
  nextIdx : Nat
  out : List String
deriving DecidableEq, Repr

/-- The in-order drain loop run under the mutex after a worker stores its
result: while `buffered[next]` exists, emit it, delete it and advance
`next`.  `fuel` bounds the iterations (the caller passes the size of the
buffer, which the loop strictly shrinks). -/
def drainBuffered : Nat → List parItem → Nat → List String →
    List parItem × Nat × List String
  | 0, buf, nxt, out => (buf, nxt, out)
  | fuel + 1, buf, nxt, out =>
    match buf.find? (fun x => x.index == nxt) with
    | none => (buf, nxt, out)
    | some x =>
      drainBuffered fuel (buf.filter (fun y => y.index != nxt)) (nxt + 1)
        (out ++ [x.value])

/-- One scheduler action of a `MapConcurrent` run: some worker receives
the next queued item (`claim`), or some worker that holds item `x`
finishes computing `fn x.value` and publishes it under the mutex
(`publish x`).  Arbitrary interleavings of these actions over-approximate
every execution of `n ≥ 1` workers with arbitrary per-item latency. -/
inductive MCAction where
  | claim : MCAction
  | publish : parItem → MCAction
deriving DecidableEq, Repr

/-- The effect of one action on the shared state.  A `publish x` by a
worker that does not hold `x` is a no-op (such an action never occurs in
a real run; keeping it total only enlarges the set of schedules). -/
def mcStep (fn : String → String) (st : MCState) : MCAction → MCState
  | .claim =>
    match st.source with
    | [] => st
    | x :: rest => { st with source := rest, inflight := st.inflight ++ [x] }
  | .publish x =>
    if x ∈ st.inflight then
      let buf := st.buffered ++ [⟨x.index, fn x.value⟩]
      let r := drainBuffered buf.length buf st.nextIdx st.out
      { source := st.source
        inflight := st.inflight.erase x
        buffered := r.1
        nextIdx := r.2.1
        out := r.2.2 }
    else st

/-- The input stream tagged with sequence numbers `0, 1, 2, ...` in
arrival order, as the reader goroutine produces it. -/
def enumItems (input : List String) : List parItem :=
  input.enum.map fun p => ⟨p.1, p.2⟩

/-- The initial state: everything still queued, nothing claimed,
published or emitted. -/
def mcInit (input : List String) : MCState :=
  { source := enumItems input
    inflight := []
    buffered := []
    nextIdx := 0
    out := [] }

/-- Run a schedule of actions from the initial state. -/
def mcExec (fn : String → String) (input : List String)
    (acts : List MCAction) : MCState :=
  acts.foldl (mcStep fn) (mcInit input)

/-- The sequence numbers carried by a list of items. -/
def keysOf (l : List parItem) : List Nat := l.map parItem.index

/-- The inductive invariant of a `MapConcurrent` run: `d` counts the
items the workers have collectively received so far.  Emitted output is
the mapped prefix of length `next`; claimed-but-unpublished and
published-but-unemitted entries carry the right values, have pairwise
distinct sequence numbers, and together cover exactly the window
`[next, d)`; published entries all lie strictly beyond `next`. -/
def MCInv (fn : String → String) (input : List String) (d : Nat)
    (st : MCState) : Prop :=
  d ≤ input.length ∧ st.nextIdx ≤ d ∧
  st.source = (enumItems input).drop d ∧
  st.out = (input.map fn).take st.nextIdx ∧
  (∀ x ∈ st.inflight,
    st.nextIdx ≤ x.index ∧ x.index < d ∧ input[x.index]? = some x.value) ∧
  (∀ x ∈ st.buffered,
    st.nextIdx < x.index ∧ x.index < d ∧
      (input.map fn)[x.index]? = some x.value) ∧
  (keysOf st.inflight ++ keysOf st.buffered).Nodup ∧
  (∀ i, st.nextIdx ≤ i → i < d →
    i ∈ keysOf st.inflight ∨ i ∈ keysOf st.buffered)

/-- `sample` (deterministic pipe sampler): a hash paired with the item it
scores. -/
structure sample where
  hash : String
  item : String
deriving DecidableEq, Repr

/-- The `samples` min-structure ordered by `hash`, modelled as a list kept
sorted in ascending hash order.  It stands for the `container/heap`
(Go standard library, outside this repository) view of the `samples`
slice: `heap.Push` inserts an entry, `heap.Pop` removes a least entry
per `Less`, which compares `hash` strings. -/
def sInsert (x : sample) : List sample → List sample
  | [] => [x]
  | y :: rest => if x.hash < y.hash then x :: y :: rest else y :: sInsert x rest

/-- One iteration of the deterministic `Sample` loop: `i++`, hash the
pair `(i, s)`, push, and pop the least entry if the structure now holds
more than `n` entries.  The composite `fmt.Sprintf`/`sha1`/hex step is
the opaque pure function `hash`. -/
def detStep (hash : Nat → String → String) (n : Nat)
    (st : Nat × List sample) (s : String) : Nat × List sample :=
  let i := st.1 + 1
  let h := sInsert ⟨hash i s, s⟩ st.2
  (i, if n < h.length then h.tail else h)

/-- The retained entries after the whole input has been consumed. -/
def detHeap (hash : Nat → String → String) (n : Nat)
    (input : List String) : List sample :=
  (input.foldl (detStep hash n) (0, [])).2

/-- `pipe.Sample(n)` (deterministic variant): pop the retained entries
(in ascending hash order) and emit their items. -/
def Sample (hash : Nat → String → String) (n : Nat)
    (input : List String) : List String :=
  (detHeap hash n input).map sample.item

/-- The scored entries of the whole input stream, with 1-based indices
starting at `i0 + 1` (the loop increments `i` before hashing). -/
def entriesFrom (hash : Nat → String → String) (i0 : Nat) :
    List String → List sample
  | [] => []
  | s :: l => ⟨hash (i0 + 1) s, s⟩ :: entriesFrom hash (i0 + 1) l

/-- The `samples` structure ordered by ascending hash, i.e. the abstract
heap order `Less` maintains. -/
def hashSorted (l : List sample) : Prop :=
  List.Pairwise (fun a b => a.hash ≤ b.hash) l

/-- `limitBytes` (Xargs): `4096 - 100`, the Posix limit with some slop. -/
def limitBytes : Nat := 4096 - 100

/-- The number of bytes one item contributes to a command line:
a separator plus the item (`usedBytes += 1 + len(s)`). -/
def itemWeight (s : String) : Nat := 1 + s.length

/-- Total byte contribution of a list of items. -/
def weight (l : List String) : Nat := (l.map itemWeight).sum

/-- `baseBytes`: the fixed overhead of the command name and the fixed
arguments (`baseBytes := len(command)` plus `1 + len(a)` per fixed arg). -/
def baseBytes (command : String) (args : List String) : Nat :=
  command.length + weight args

/-- The serialized length of one invocation whose batch (beyond the fixed
arguments) is `b`: this is the loop's `usedBytes` for that batch. -/
def batchSize (base : Nat) (b : List String) : Nat := base + weight b

/-- The `Xargs` buffering loop state: already-flushed batches (one per
`run()` call), the current batch beyond the fixed args (`items` minus
`args`), and `usedBytes`. -/
structure XState where
  batches : List (List String)
  items : List String
  usedBytes : Nat
deriving DecidableEq, Repr

/-- One iteration of the `Xargs` loop body: if the batch is non-empty
(`len(items) > len(args)`) and adding `s` would reach the limit
(`usedBytes+1+len(s) >= limitBytes`), flush first; then append `s`. -/
def xargsStep (limit base : Nat) (st : XState) (s : String) : XState :=
  let st1 :=
    if 0 < st.items.length ∧ limit ≤ st.usedBytes + 1 + s.length then
      { batches := st.batches ++ [st.items], items := [], usedBytes := base }
    else st
  { batches := st1.batches
    items := st1.items ++ [s]
    usedBytes := st1.usedBytes + 1 + s.length }

/-- The whole buffering loop, from `usedBytes = baseBytes` and an empty
batch. -/
def xargsRun (limit base : Nat) (input : List String) : XState :=
  input.foldl (xargsStep limit base) ⟨[], [], base⟩

/-- The final flush after the input exhausts:
`if len(items) > len(args) { return run() }`. -/
def xFinalize (st : XState) : List (List String) :=
  if 0 < st.items.length then st.batches ++ [st.items] else st.batches

/-- `Xargs`'s invocation batches: the flushed batches plus the final
flush of a non-empty leftover batch; batch `b` stands for the invocation
`command args... b...`. -/
def xargsBatches (limit base : Nat) (input : List String) :
    List (List String) :=
  xFinalize (xargsRun limit base input)

/-- `Xargs` with the source's constant byte ceiling. -/
def xargsBatchesGo (command : String) (args : List String)
    (input : List String) : List (List String) :=
  xargsBatches limitBytes (baseBytes command args) input

/-- The greedy maximal-prefix splitter: `greedyAux limit used l` returns
the longest prefix of `l` whose items can be added one by one while the
running size stays strictly below `limit`, together with the rest. -/
def greedyAux (limit : Nat) : Nat → List String → List String × List String
  | _, [] => ([], [])
  | used, s :: rest =>
    if used + 1 + s.length < limit then
      let r := greedyAux limit (used + 1 + s.length) rest
      (s :: r.1, r.2)
    else ([], s :: rest)

/-- Greedy contiguous partitioning: each batch takes its first item
unconditionally, then extends while the size stays below `limit`.
The fuel argument bounds the recursion (one batch per unit). -/
def greedyPartFuel (limit base : Nat) : Nat → List String → List (List String)
  | 0, _ => []
  | _, [] => []
  | fuel + 1, s :: rest =>
    let r := greedyAux limit (base + 1 + s.length) rest
    (s :: r.1) :: greedyPartFuel limit base fuel r.2

/-- Greedy contiguous partitioning of the whole input. -/
def greedyPartition (limit base : Nat) (l : List String) :
    List (List String) :=
  greedyPartFuel limit base l.length l

/-- A valid way to split `input` across invocations: contiguous non-empty
batches, in order, each of serialized length strictly below `limit`. -/
def ValidPartition (limit base : Nat) (P : List (List String))
    (input : List String) : Prop :=
  P.flatten = input ∧ ∀ b ∈ P, b ≠ [] ∧ batchSize base b < limit

end PipePkg

namespace StreamPkg

/-- The error each stage of the chain returns, in stage order; stage
`i + 1` consumes the full output of stage `i`. -/
def chainErrors : List Filter → List String → List (Option Err)
  | [], _ => []
  | f :: fs, input => (f input).2 :: chainErrors fs (f input).1

end StreamPkg

section ErrorBoxProofs

open StreamPkg

theorem record_err (e : filterErrors) (x : Option Err) :
    (e.record x).err = e.err.or x := by
  match x with
  | none =>
    show e.err = e.err.or none
    cases e.err <;> rfl
  | some v =>
    unfold filterErrors.record
    by_cases h : e.err = none
    · simp [h, Option.or]
    · match he : e.err with
      | none => exact absurd he h
      | some w => simp [he, Option.or]

theorem head_filterMap_cons (x : Option Err) (l : List (Option Err)) :
    (((x :: l).filterMap id).head?) = x.or ((l.filterMap id).head?) := by
  match x with
  | none => simp [List.filterMap_cons, Option.or]
  | some v => simp [List.filterMap_cons, Option.or]

theorem foldl_record_err (l : List (Option Err)) :
    ∀ e : filterErrors,
      (l.foldl filterErrors.record e).err = e.err.or ((l.filterMap id).head?) := by
  induction l with
  | nil => intro e; simp
  | cons x l ih =>
    intro e
    rw [List.foldl_cons, ih, record_err, head_filterMap_cons, Option.or_assoc]

/-- C2: the `filterErrors` box shared by all stages of one run stores at
most one error, the first reported: once set, a later `record` leaves it
unchanged, and `getError` over any linearized sequence of recorded errors
surfaces exactly the first non-nil one. -/
theorem errorBox_first_write_wins :
    (∀ (e : filterErrors) (v : Err) (x : Option Err),
        e.err = some v → (e.record x).err = some v) ∧
    (∀ l : List (Option Err),
        (recordAll l).getError = (l.filterMap id).head?) := by
  constructor
  · intro e v x h
    rw [record_err, h]
    rfl
  · intro l
    show (l.foldl filterErrors.record ⟨none⟩).err = _
    rw [foldl_record_err]
    rfl

/-- Witness for C2 at a concrete error box: recording a second error on
top of a recorded first error leaves the first in place. -/
theorem errorBox_first_write_wins_witness :
    (filterErrors.record ⟨some "first"⟩ (some "second")).err = some "first" :=
  errorBox_first_write_wins.1 ⟨some "first"⟩ "first" (some "second") rfl

/-- C9: `Sequence` applied to a single filter returns that filter itself
(`if len(filters) == 1 { return filters[0] }`), so no chaining wrapper,
intermediate channel or extra stage task is involved in that case. -/
theorem sequence_singleton (f : Filter) : Sequence [f] = f := rfl

theorem chainErrors_surface (fs : List Filter) :
    ∀ input, (runChain fs input).2.err = ((chainErrors fs input).filterMap id).head? := by
  have key : ∀ (gs : List Filter) (input : List String) (e : filterErrors),
      (gs.foldl (fun acc f => let r := f acc.1; (r.1, acc.2.record r.2)) (input, e)).2.err
        = e.err.or ((chainErrors gs input).filterMap id).head? := by
    intro gs
    induction gs with
    | nil => intro input e; simp [chainErrors]
    | cons f gs ih =>
      intro input e
      rw [List.foldl_cons]
      show (gs.foldl _ ((f input).1, e.record (f input).2)).2.err = _
      rw [ih, record_err, chainErrors, head_filterMap_cons, Option.or_assoc]
  intro input
  rw [runChain, key]
  rfl

/-- C3: whenever the pipeline run behind `Contents` surfaces an error,
`Contents` discards every accumulated output item and returns the empty
slice together with that error; moreover a non-nil error returned by any
stage of the chain guarantees the surfaced error is non-nil. -/
theorem contents_discards_on_error :
    (∀ (filters : List Filter) (e : Err),
        (ForEach (Sequence filters)).2 = some e →
        Contents filters = ([], some e)) ∧
    (∀ (fs : List Filter) (input : List String) (v : Err),
        some v ∈ chainErrors fs input →
        (runChain fs input).2.getError ≠ none) := by
  constructor
  · intro filters e h
    show (match (ForEach (Sequence filters)).2 with
      | some e => (([] : List String), some e)
      | none => ((ForEach (Sequence filters)).1, none)) = ([], some e)
    rw [h]
  · intro fs input v hmem
    show (runChain fs input).2.err ≠ none
    rw [chainErrors_surface]
    have hv : v ∈ (chainErrors fs input).filterMap id := by
      exact List.mem_filterMap.mpr ⟨some v, hmem, rfl⟩
    intro hnone
    rw [List.head?_eq_none_iff] at hnone
    rw [hnone] at hv
    exact absurd hv (List.not_mem_nil v)

/-- Witness for C3: a one-filter pipeline whose filter emits an item and
then reports an error; `Contents` returns no items alongside the error. -/
theorem contents_discards_on_error_witness :
    Contents [fun _ => (["x"], some "boom")] = ([], some "boom") :=
  contents_discards_on_error.1 [fun _ => (["x"], some "boom")] "boom" rfl

/-- C4: a completed stage task `runFilter` records the filter's returned
error into the shared box, closes its own output channel exactly once
(the close succeeds, so the channel was not already closed twice), and
drains every remaining unread item of its input channel. -/
theorem runFilter_completion_steps (eff : RunEffect) (e : filterErrors)
    (inC outC : Chan) (h : outC.closed = false) :
    runFilter eff e inC outC =
      some (e.record eff.err, ⟨[], inC.closed⟩, ⟨outC.buf ++ eff.outs, true⟩) := by
  unfold runFilter closeChan drainChan
  simp [h]

/-- Witness for C4 at concrete channels: the error is recorded, the
output channel ends closed with the produced items appended, and the
input channel ends empty. -/
theorem runFilter_completion_steps_witness :
    runFilter ⟨["o1"], some "err1"⟩ ⟨none⟩ ⟨["u1", "u2"], false⟩ ⟨["p"], false⟩ =
      some (⟨some "err1"⟩, ⟨[], false⟩, ⟨["p", "o1"], true⟩) :=
  runFilter_completion_steps ⟨["o1"], some "err1"⟩ ⟨none⟩ ⟨["u1", "u2"], false⟩
    ⟨["p"], false⟩ rfl

end ErrorBoxProofs

section ReservoirProofs

open StreamPkg

theorem sampleRun_loop (n : Nat) (xs : List (String × RngDraw)) :
    ∀ st : SampleState, st.reservoir.length = min st.i n →
      (xs.foldl (fun st p => sampleStep n st p.1 p.2) st).i = st.i + xs.length ∧
      (xs.foldl (fun st p => sampleStep n st p.1 p.2) st).reservoir.length
        = min (st.i + xs.length) n := by
  induction xs with
  | nil => intro st h; simpa using h
  | cons p xs ih =>
    intro st h
    rw [List.foldl_cons]
    have hstep : (sampleStep n st p.1 p.2).i = st.i + 1 ∧
        (sampleStep n st p.1 p.2).reservoir.length = min (st.i + 1) n := by
      unfold sampleStep
      split_ifs with h1 h2
      · refine ⟨rfl, ?_⟩
        simp only [List.length_append, List.length_cons, List.length_nil, h]
        omega
      · refine ⟨rfl, ?_⟩
        simp only [List.length_set, h]
        omega
      · refine ⟨rfl, ?_⟩
        simp only [h]
        omega
    have hind := ih (sampleStep n st p.1 p.2) (by rw [hstep.2, hstep.1])
    rw [hind.1, hind.2, hstep.1]
    simp only [List.length_cons]
    constructor
    · omega
    · omega

/-- C6: the uniform reservoir sampler, with its random draws made
explicit: the 1-based `i`-th item is appended while `i ≤ n`; afterwards
it replaces reservoir slot `j` exactly when the drawn uniform value is
below `n / i` and is discarded otherwise; the reservoir holds exactly
`min(items seen, n)` items — never more than `n` — and the final
reservoir contents are what `Sample` emits after the input exhausts.
(The `float32` threshold test of the source is idealized as the exact
rational comparison.) -/
theorem sample_reservoir_alg :
    (∀ (n : Nat) (xs : List (String × RngDraw)),
        Sample n xs = (sampleRun n xs).reservoir) ∧
    (∀ (n : Nat) (xs : List (String × RngDraw)),
        (sampleRun n xs).i = xs.length ∧
        (sampleRun n xs).reservoir.length = min xs.length n) ∧
    (∀ (n : Nat) (st : SampleState) (s : String) (d : RngDraw),
        (st.i + 1 ≤ n →
          sampleStep n st s d = ⟨st.reservoir ++ [s], st.i + 1⟩) ∧
        (n < st.i + 1 → d.u < (n : ℚ) / ((st.i + 1 : Nat) : ℚ) →
          sampleStep n st s d = ⟨st.reservoir.set d.j s, st.i + 1⟩) ∧
        (n < st.i + 1 → ¬ d.u < (n : ℚ) / ((st.i + 1 : Nat) : ℚ) →
          sampleStep n st s d = ⟨st.reservoir, st.i + 1⟩)) := by
  refine ⟨fun n xs => rfl, fun n xs => ?_, fun n st s d => ?_⟩
  · have h := sampleRun_loop n xs ⟨[], 0⟩ (by simp)
    simpa [sampleRun] using h
  · refine ⟨fun h1 => ?_, fun h1 h2 => ?_, fun h1 h2 => ?_⟩
    · unfold sampleStep
      rw [if_pos (show st.i < n by omega)]
    · unfold sampleStep
      rw [if_neg (show ¬ st.i < n by omega), if_pos h2]
    · unfold sampleStep
      rw [if_neg (show ¬ st.i < n by omega), if_neg h2]

/-- Witness for C6 with `n = 1` and a concrete state after one item: the
second item (`i = 2 > n`) draws `u = 0 < 1/2` and so replaces slot 0. -/
theorem sample_reservoir_alg_witness :
    sampleStep 1 ⟨["a"], 1⟩ "b" ⟨(0 : ℚ), 0⟩ = ⟨["b"], 2⟩ :=
  (sample_reservoir_alg.2.2 1 ⟨["a"], 1⟩ "b" ⟨(0 : ℚ), 0⟩).2.1
    (by decide) (div_pos one_pos two_pos)

end ReservoirProofs

section XargsProofs

open PipePkg

theorem weight_append (a b : List String) :
    weight (a ++ b) = weight a + weight b := by
  simp [weight]

theorem weight_cons (s : String) (l : List String) :
    weight (s :: l) = (1 + s.length) + weight l := by
  simp [weight, itemWeight]

theorem batchSize_snoc (base : Nat) (cur : List String) (s : String) :
    batchSize base (cur ++ [s]) = batchSize base cur + 1 + s.length := by
  simp [batchSize, weight_append, weight, itemWeight]
  omega

theorem batchSize_single (base : Nat) (s : String) :
    batchSize base [s] = base + 1 + s.length := by
  simp [batchSize, weight, itemWeight]
  omega

theorem greedyAux_cons (limit used : Nat) (s : String) (rest : List String) :
    greedyAux limit used (s :: rest) =
      if used + 1 + s.length < limit then
        (s :: (greedyAux limit (used + 1 + s.length) rest).1,
          (greedyAux limit (used + 1 + s.length) rest).2)
      else ([], s :: rest) := rfl

theorem greedyAux_append (limit : Nat) :
    ∀ (l : List String) (used : Nat),
      (greedyAux limit used l).1 ++ (greedyAux limit used l).2 = l := by
  intro l
  induction l with
  | nil => intro used; rfl
  | cons s rest ih =>
    intro used
    unfold greedyAux
    by_cases h : used + 1 + s.length < limit
    · simp only [h, if_true, List.cons_append, List.cons.injEq, true_and]
      exact ih (used + 1 + s.length)
    · simp [h]

theorem greedyAux_snd_length (limit : Nat) :
    ∀ (l : List String) (used : Nat),
      (greedyAux limit used l).2.length ≤ l.length := by
  intro l
  induction l with
  | nil => intro used; simp [greedyAux]
  | cons s rest ih =>
    intro used
    unfold greedyAux
    by_cases h : used + 1 + s.length < limit
    · simp only [h, if_true]
      exact le_trans (ih (used + 1 + s.length)) (by simp)
    · simp [h]

theorem greedyAux_size (limit : Nat) :
    ∀ (l : List String) (used : Nat), used < limit →
      used + weight (greedyAux limit used l).1 < limit := by
  intro l
  induction l with
  | nil => intro used h; simpa [greedyAux, weight] using h
  | cons s rest ih =>
    intro used h
    unfold greedyAux
    by_cases hg : used + 1 + s.length < limit
    · simp only [hg, if_true, weight_cons]
      have := ih (used + 1 + s.length) hg
      omega
    · simpa [hg, weight] using h

theorem greedyAux_mem_fits (limit : Nat) :
    ∀ (l : List String) (used base : Nat), base ≤ used →
      ∀ t ∈ (greedyAux limit used l).1, base + 1 + t.length < limit := by
  intro l
  induction l with
  | nil => intro used base _ t ht; simp [greedyAux] at ht
  | cons s rest ih =>
    intro used base hb t ht
    unfold greedyAux at ht
    by_cases hg : used + 1 + s.length < limit
    · simp only [hg, if_true, List.mem_cons] at ht
      rcases ht with rfl | ht
      · omega
      · exact ih (used + 1 + s.length) base (by omega) t ht
    · simp [hg] at ht

theorem greedyAux_stop (limit : Nat) (l : List String) (used : Nat)
    (h : limit ≤ used) : greedyAux limit used l = ([], l) := by
  cases l with
  | nil => rfl
  | cons s rest =>
    unfold greedyAux
    rw [if_neg (by omega)]

theorem greedyAux_prefix_le (limit : Nat) :
    ∀ (q l t : List String) (used : Nat), q ++ t = l →
      used + weight q < limit →
      q.length ≤ (greedyAux limit used l).1.length := by
  intro q
  induction q with
  | nil => intro l t used _ _; simp
  | cons x q' ih =>
    intro l t used hl hw
    subst hl
    rw [weight_cons] at hw
    rw [List.cons_append, greedyAux_cons, if_pos (by omega)]
    simp only [List.length_cons, Nat.add_le_add_iff_right]
    exact ih (q' ++ t) t (used + 1 + x.length) rfl (by omega)

theorem greedyPartFuel_congr (limit base : Nat) :
    ∀ (fuel fuel' : Nat) (l : List String), l.length ≤ fuel → l.length ≤ fuel' →
      greedyPartFuel limit base fuel l = greedyPartFuel limit base fuel' l := by
  intro fuel
  induction fuel with
  | zero =>
    intro fuel' l hl hl'
    have : l = [] := List.length_eq_zero.mp (Nat.le_zero.mp hl)
    subst this
    cases fuel' <;> rfl
  | succ fuel ih =>
    intro fuel' l hl hl'
    cases l with
    | nil => cases fuel' <;> rfl
    | cons s rest =>
      cases fuel' with
      | zero => exact absurd hl' (by simp)
      | succ fuel' =>
        show (s :: _) :: greedyPartFuel limit base fuel _
            = (s :: _) :: greedyPartFuel limit base fuel' _
        have hlen : (greedyAux limit (base + 1 + s.length) rest).2.length ≤ rest.length :=
          greedyAux_snd_length limit rest _
        rw [ih fuel' _ (by simp at hl; omega) (by simp at hl'; omega)]

theorem greedyPartition_cons (limit base : Nat) (s : String) (rest : List String) :
    greedyPartition limit base (s :: rest) =
      (s :: (greedyAux limit (base + 1 + s.length) rest).1)
        :: greedyPartition limit base (greedyAux limit (base + 1 + s.length) rest).2 := by
  show greedyPartFuel limit base (s :: rest).length (s :: rest) = _
  simp only [List.length_cons]
  show (s :: _) :: greedyPartFuel limit base rest.length _ = _
  rw [greedyPartFuel_congr limit base rest.length
    (greedyAux limit (base + 1 + s.length) rest).2.length _
    (greedyAux_snd_length limit rest _) le_rfl]
  rfl

theorem greedyPartition_flatten (limit base : Nat) :
    ∀ (fuel : Nat) (l : List String), l.length ≤ fuel →
      (greedyPartFuel limit base fuel l).flatten = l := by
  intro fuel
  induction fuel with
  | zero =>
    intro l hl
    have : l = [] := List.length_eq_zero.mp (Nat.le_zero.mp hl)
    subst this; rfl
  | succ fuel ih =>
    intro l hl
    cases l with
    | nil => rfl
    | cons s rest =>
      show ((s :: (greedyAux limit (base + 1 + s.length) rest).1)
          :: greedyPartFuel limit base fuel
              (greedyAux limit (base + 1 + s.length) rest).2).flatten = s :: rest
      rw [List.flatten_cons,
        ih _ (le_trans (greedyAux_snd_length limit rest _) (by simp at hl; omega))]
      simp only [List.cons_append, List.cons.injEq, true_and]
      exact greedyAux_append limit rest _

theorem greedyPartition_nonempty (limit base : Nat) :
    ∀ (fuel : Nat) (l : List String), l.length ≤ fuel →
      ∀ b ∈ greedyPartFuel limit base fuel l, b ≠ [] := by
  intro fuel
  induction fuel with
  | zero =>
    intro l hl b hb
    have : l = [] := List.length_eq_zero.mp (Nat.le_zero.mp hl)
    subst this; simp [greedyPartFuel] at hb
  | succ fuel ih =>
    intro l hl b hb
    cases l with
    | nil => simp [greedyPartFuel] at hb
    | cons s rest =>
      simp only [greedyPartFuel, List.mem_cons] at hb
      rcases hb with rfl | hb
      · simp
      · exact ih _ (le_trans (greedyAux_snd_length limit rest _) (by simp at hl; omega)) b hb

theorem greedyAux_snd_subset (limit : Nat) (l : List String) (used : Nat) :
    ∀ t ∈ (greedyAux limit used l).2, t ∈ l := by
  intro t ht
  rw [← greedyAux_append limit l used]
  exact List.mem_append_right _ ht

theorem greedyPartition_fits (limit base : Nat) :
    ∀ (fuel : Nat) (l : List String), l.length ≤ fuel →
      (∀ s ∈ l, base + 1 + s.length < limit) →
      ∀ b ∈ greedyPartFuel limit base fuel l, batchSize base b < limit := by
  intro fuel
  induction fuel with
  | zero =>
    intro l hl _ b hb
    have : l = [] := List.length_eq_zero.mp (Nat.le_zero.mp hl)
    subst this; simp [greedyPartFuel] at hb
  | succ fuel ih =>
    intro l hl hsmall b hb
    cases l with
    | nil => simp [greedyPartFuel] at hb
    | cons s rest =>
      simp only [greedyPartFuel, List.mem_cons] at hb
      rcases hb with rfl | hb
      · have hs : base + 1 + s.length < limit := hsmall s (List.mem_cons_self s rest)
        have := greedyAux_size limit rest (base + 1 + s.length) hs
        simp only [batchSize, weight_cons]
        omega
      · refine ih _ (le_trans (greedyAux_snd_length limit rest _) (by simp at hl; omega))
          (fun t ht => hsmall t (List.mem_cons_of_mem s (greedyAux_snd_subset limit rest _ t ht)))
          b hb

theorem greedyPartition_oversize (limit base : Nat) :
    ∀ (fuel : Nat) (l : List String) (s : String), l.length ≤ fuel →
      s ∈ l → limit ≤ base + 1 + s.length →
      [s] ∈ greedyPartFuel limit base fuel l := by
  intro fuel
  induction fuel with
  | zero =>
    intro l s hl hs _
    have : l = [] := List.length_eq_zero.mp (Nat.le_zero.mp hl)
    subst this; simp at hs
  | succ fuel ih =>
    intro l s hl hs hbig
    cases l with
    | nil => simp at hs
    | cons t rest =>
      rcases List.mem_cons.mp hs with rfl | hs
      · show [s] ∈ (s :: (greedyAux limit (base + 1 + s.length) rest).1) :: _
        rw [greedyAux_stop limit rest _ hbig]
        exact List.mem_cons_self _ _
      · show [s] ∈ (t :: (greedyAux limit (base + 1 + t.length) rest).1) :: _
        by_cases hpre : s ∈ (greedyAux limit (base + 1 + t.length) rest).1
        · have := greedyAux_mem_fits limit rest (base + 1 + t.length) base
            (by omega) s hpre
          omega
        · have hmem : s ∈ (greedyAux limit (base + 1 + t.length) rest).2 := by
            have : s ∈ (greedyAux limit (base + 1 + t.length) rest).1
                ++ (greedyAux limit (base + 1 + t.length) rest).2 := by
              rw [greedyAux_append]; exact hs
            rcases List.mem_append.mp this with h | h
            · exact absurd h hpre
            · exact h
          exact List.mem_cons_of_mem _
            (ih _ s (le_trans (greedyAux_snd_length limit rest _) (by simp at hl; omega))
              hmem hbig)

theorem valid_suffix (limit base : Nat) :
    ∀ (P : List (List String)) (a z : List String),
      P.flatten = a ++ z →
      (∀ b ∈ P, b ≠ [] ∧ batchSize base b < limit) →
      ∃ Q : List (List String), Q.flatten = z ∧
        (∀ b ∈ Q, b ≠ [] ∧ batchSize base b < limit) ∧ Q.length ≤ P.length := by
  intro P
  induction P with
  | nil =>
    intro a z hflat _
    have : z = [] := by
      have := hflat.symm
      simp only [List.flatten_nil] at hflat
      exact (List.append_eq_nil.mp hflat.symm).2
    subst this
    exact ⟨[], rfl, by simp, le_rfl⟩
  | cons p Ps ih =>
    intro a z hflat hvalid
    rw [List.flatten_cons] at hflat
    rcases List.append_eq_append_iff.mp hflat with ⟨t, hat, hrest⟩ | ⟨c, hpc, hz⟩
    · rcases ih t z hrest (fun b hb => hvalid b (List.mem_cons_of_mem p hb)) with
        ⟨Q, hQ1, hQ2, hQ3⟩
      exact ⟨Q, hQ1, hQ2, le_trans hQ3 (by simp)⟩
    · cases c with
      | nil =>
        refine ⟨Ps, ?_, fun b hb => hvalid b (List.mem_cons_of_mem p hb), by simp⟩
        simpa using hz.symm
      | cons c0 cs =>
        refine ⟨(c0 :: cs) :: Ps, ?_, ?_, by simp⟩
        · rw [List.flatten_cons, hz]
        · intro b hb
          rcases List.mem_cons.mp hb with rfl | hb
          · refine ⟨by simp, ?_⟩
            have hple := (hvalid p (List.mem_cons_self p Ps)).2
            rw [hpc] at hple
            simp only [batchSize, weight_append] at hple ⊢
            omega
          · exact hvalid b (List.mem_cons_of_mem p hb)

theorem greedy_minimal (limit base : Nat) :
    ∀ (fuel : Nat) (l : List String) (P : List (List String)),
      l.length ≤ fuel → P.flatten = l →
      (∀ b ∈ P, b ≠ [] ∧ batchSize base b < limit) →
      (greedyPartFuel limit base fuel l).length ≤ P.length := by
  intro fuel
  induction fuel with
  | zero =>
    intro l P hl _ _
    have : l = [] := List.length_eq_zero.mp (Nat.le_zero.mp hl)
    subst this; simp [greedyPartFuel]
  | succ fuel ih =>
    intro l P hl hflat hvalid
    cases l with
    | nil => simp [greedyPartFuel]
    | cons s rest =>
      cases P with
      | nil => simp at hflat
      | cons p Ps =>
        have hpne := (hvalid p (List.mem_cons_self p Ps)).1
        cases p with
        | nil => exact absurd rfl hpne
        | cons q p' =>
          rw [List.flatten_cons, List.cons_append] at hflat
          have hq : q = s := (List.cons.injEq _ _ _ _).mp hflat |>.1
          have hrest : p' ++ Ps.flatten = rest := (List.cons.injEq _ _ _ _).mp hflat |>.2
          subst hq
          have hsize := (hvalid (q :: p') (List.mem_cons_self _ Ps)).2
          rw [batchSize, weight_cons] at hsize
          have hplen : p'.length ≤ (greedyAux limit (base + 1 + q.length) rest).1.length :=
            greedyAux_prefix_le limit p' rest Ps.flatten (base + 1 + q.length) hrest
              (by omega)
          have hsplit : ∃ t, Ps.flatten = t
              ++ (greedyAux limit (base + 1 + q.length) rest).2 := by
            have hr : p' ++ Ps.flatten
                = (greedyAux limit (base + 1 + q.length) rest).1
                  ++ (greedyAux limit (base + 1 + q.length) rest).2 := by
              rw [hrest, greedyAux_append]
            rcases List.append_eq_append_iff.mp hr with ⟨t, _, hrest2⟩ | ⟨c, hpc, hz⟩
            · exact ⟨t, hrest2⟩
            · have hc : c = [] := by
                have h1 := congrArg List.length hpc
                simp only [List.length_append] at h1
                have h2 : c.length = 0 := by omega
                exact List.length_eq_zero.mp h2
              subst hc
              exact ⟨[], by simpa using hz.symm⟩
          rcases hsplit with ⟨t, ht⟩
          rcases valid_suffix limit base Ps t _ ht
              (fun b hb => hvalid b (List.mem_cons_of_mem _ hb)) with ⟨Q, hQ1, hQ2, hQ3⟩
          show ((q :: _) :: greedyPartFuel limit base fuel _).length ≤ (Ps.length + 1)
          simp only [List.length_cons, Nat.add_le_add_iff_right]
          exact le_trans
            (ih _ Q (le_trans (greedyAux_snd_length limit rest _) (by simp at hl; omega))
              hQ1 hQ2)
            hQ3

theorem xargsStep_eq (limit base : Nat) (B : List (List String))
    (cur : List String) (used : Nat) (s : String) :
    xargsStep limit base ⟨B, cur, used⟩ s =
      if 0 < cur.length ∧ limit ≤ used + 1 + s.length then
        ⟨B ++ [cur], [s], base + 1 + s.length⟩
      else ⟨B, cur ++ [s], used + 1 + s.length⟩ := by
  unfold xargsStep
  split_ifs with h <;> rfl

theorem xargsLoop_eq (limit base : Nat) :
    ∀ (l : List String) (B : List (List String)) (cur : List String),
      cur ≠ [] →
      xFinalize (l.foldl (xargsStep limit base) ⟨B, cur, batchSize base cur⟩)
      = B ++ (cur ++ (greedyAux limit (batchSize base cur) l).1)
          :: greedyPartition limit base (greedyAux limit (batchSize base cur) l).2 := by
  intro l
  induction l with
  | nil =>
    intro B cur hcur
    show (if 0 < cur.length then B ++ [cur] else B) = _
    rw [if_pos (List.length_pos.mpr hcur)]
    simp [greedyPartition, greedyPartFuel, greedyAux]
  | cons s rest ih =>
    intro B cur hcur
    rw [List.foldl_cons, xargsStep_eq]
    by_cases hg : batchSize base cur + 1 + s.length < limit
    · rw [if_neg (by omega)]
      rw [show batchSize base cur + 1 + s.length = batchSize base (cur ++ [s]) from
        (batchSize_snoc base cur s).symm]
      rw [ih B (cur ++ [s]) (by simp)]
      rw [greedyAux_cons, if_pos hg, batchSize_snoc]
      simp
    · rw [if_pos ⟨List.length_pos.mpr hcur, by omega⟩]
      rw [show base + 1 + s.length = batchSize base [s] from
        (batchSize_single base s).symm]
      rw [ih (B ++ [cur]) [s] (by simp)]
      rw [greedyAux_cons, if_neg hg, greedyPartition_cons, batchSize_single]
      simp

theorem xargsBatches_eq_greedy (limit base : Nat) (l : List String) :
    xargsBatches limit base l = greedyPartition limit base l := by
  cases l with
  | nil => rfl
  | cons s rest =>
    show xFinalize ((s :: rest).foldl (xargsStep limit base) ⟨[], [], base⟩) = _
    rw [List.foldl_cons, xargsStep_eq, if_neg (by simp)]
    rw [show base + 1 + s.length = batchSize base [s] from
      (batchSize_single base s).symm]
    rw [show ([] ++ [s] : List String) = [s] from rfl]
    rw [xargsLoop_eq limit base rest [] [s] (by simp)]
    rw [greedyPartition_cons, batchSize_single]
    simp

/-- C5: for inputs whose items each fit a single invocation, the
invocation batches produced by `Xargs`'s buffering loop cover the input
exactly (no item split, duplicated, dropped or reordered, and the final
non-empty leftover batch is flushed), every invocation's serialized
argument length stays strictly under the byte ceiling, and the number of
invocations is the minimum achievable by any in-order batching whose
batches all stay under the ceiling. -/
theorem xargs_minimal_invocations (limit base : Nat) (input : List String)
    (hsmall : ∀ s ∈ input, base + 1 + s.length < limit) :
    (xargsBatches limit base input).flatten = input ∧
    (∀ b ∈ xargsBatches limit base input, b ≠ [] ∧ batchSize base b < limit) ∧
    (∀ P : List (List String), ValidPartition limit base P input →
      (xargsBatches limit base input).length ≤ P.length) := by
  rw [xargsBatches_eq_greedy]
  refine ⟨greedyPartition_flatten limit base input.length input le_rfl, ?_, ?_⟩
  · intro b hb
    exact ⟨greedyPartition_nonempty limit base input.length input le_rfl b hb,
      greedyPartition_fits limit base input.length input le_rfl hsmall b hb⟩
  · intro P hP
    exact greedy_minimal limit base input.length input P le_rfl hP.1 hP.2

/-- Witness for C5: ceiling 10, overhead 2 and three 2-byte items; the
loop flushes after two items per batch, which is also the optimum. -/
theorem xargs_minimal_invocations_witness :
    (xargsBatches 10 2 ["ab", "cd", "ef"]).flatten = ["ab", "cd", "ef"] ∧
    (∀ b ∈ xargsBatches 10 2 ["ab", "cd", "ef"], b ≠ [] ∧ batchSize 2 b < 10) ∧
    (∀ P : List (List String), ValidPartition 10 2 P ["ab", "cd", "ef"] →
      (xargsBatches 10 2 ["ab", "cd", "ef"]).length ≤ P.length) :=
  xargs_minimal_invocations 10 2 ["ab", "cd", "ef"] (by decide)

/-- C10: `Xargs` never splits an item across invocations and only
flushes non-empty batches; an item whose own length plus the fixed
overhead reaches or exceeds the byte ceiling is still passed, alone, as
the batch of a single invocation — one whose serialized argument length
is at or above the ceiling. -/
theorem xargs_oversize_item (limit base : Nat) (input : List String) :
    (xargsBatches limit base input).flatten = input ∧
    (∀ b ∈ xargsBatches limit base input, b ≠ []) ∧
    (∀ s ∈ input, limit ≤ base + 1 + s.length →
      [s] ∈ xargsBatches limit base input ∧ limit ≤ batchSize base [s]) := by
  rw [xargsBatches_eq_greedy]
  refine ⟨greedyPartition_flatten limit base input.length input le_rfl,
    greedyPartition_nonempty limit base input.length input le_rfl, ?_⟩
  intro s hs hbig
  refine ⟨greedyPartition_oversize limit base input.length input s le_rfl hs hbig, ?_⟩
  rw [batchSize_single]
  exact hbig

/-- Witness for C10: ceiling 10, overhead 2; the 9-byte middle item
(2 + 1 + 9 = 12 ≥ 10) is passed alone in its own invocation. -/
theorem xargs_oversize_item_witness :
    (xargsBatches 10 2 ["ab", "wwwwwwwww", "cd"]).flatten
        = ["ab", "wwwwwwwww", "cd"] ∧
    ["wwwwwwwww"] ∈ xargsBatches 10 2 ["ab", "wwwwwwwww", "cd"] ∧
    10 ≤ batchSize 2 ["wwwwwwwww"] :=
  have h := xargs_oversize_item 10 2 ["ab", "wwwwwwwww", "cd"]
  have h3 := h.2.2 "wwwwwwwww" (by decide) (by decide)
  ⟨h.1, h3.1, h3.2⟩

end XargsProofs

section MapConcurrentProofs

open PipePkg

theorem length_filter_lt {α : Type} (p : α → Bool) :
    ∀ (l : List α) (x : α), x ∈ l → p x = false →
      (l.filter p).length < l.length := by
  intro l
  induction l with
  | nil => intro x hx _; simp at hx
  | cons y l ih =>
    intro x hx hpx
    rcases List.mem_cons.mp hx with rfl | hx
    · rw [List.filter_cons, hpx]
      simp only [List.length_cons]
      exact lt_of_le_of_lt (List.length_filter_le p l) (Nat.lt_succ_self _)
    · rw [List.filter_cons]
      cases hpy : p y
      · simp only [List.length_cons]
        exact lt_trans (ih x hx hpx) (Nat.lt_succ_self _)
      · simp only [List.length_cons]
        exact Nat.succ_lt_succ (ih x hx hpx)

theorem keysOf_sublist {l l' : List parItem} (h : l'.Sublist l) :
    (keysOf l').Sublist (keysOf l) := h.map parItem.index

theorem drainBuffered_spec (fn : String → String) (input : List String)
    (d : Nat) :
    ∀ (fuel : Nat) (buf : List parItem) (nxt : Nat) (out : List String),
      buf.length ≤ fuel → nxt ≤ d → d ≤ input.length →
      out = (input.map fn).take nxt →
      (∀ x ∈ buf, nxt ≤ x.index ∧ x.index < d ∧
        (input.map fn)[x.index]? = some x.value) →
      (keysOf buf).Nodup →
      nxt ≤ (drainBuffered fuel buf nxt out).2.1 ∧
      (drainBuffered fuel buf nxt out).2.1 ≤ d ∧
      (drainBuffered fuel buf nxt out).2.2
        = (input.map fn).take (drainBuffered fuel buf nxt out).2.1 ∧
      (∀ x ∈ (drainBuffered fuel buf nxt out).1,
        (drainBuffered fuel buf nxt out).2.1 < x.index ∧ x.index < d ∧
          (input.map fn)[x.index]? = some x.value) ∧
      (drainBuffered fuel buf nxt out).1.Sublist buf ∧
      (∀ x ∈ buf, (drainBuffered fuel buf nxt out).2.1 ≤ x.index →
        x ∈ (drainBuffered fuel buf nxt out).1) ∧
      (∀ i, nxt ≤ i → i < (drainBuffered fuel buf nxt out).2.1 →
        i ∈ keysOf buf) := by
  intro fuel
  induction fuel with
  | zero =>
    intro buf nxt out hfuel hnd hdlen hout hbuf hnodup
    have hb : buf = [] := List.length_eq_zero.mp (Nat.le_zero.mp hfuel)
    subst hb
    simp only [drainBuffered]
    exact ⟨le_rfl, hnd, hout, by simp, by simp, by simp,
      fun i h1 h2 => absurd h2 (by omega)⟩
  | succ fuel ih =>
    intro buf nxt out hfuel hnd hdlen hout hbuf hnodup
    rcases hfind : buf.find? (fun x => x.index == nxt) with _ | x
    · simp only [drainBuffered, hfind]
      have hne : ∀ y ∈ buf, y.index ≠ nxt := by
        intro y hy
        have := List.find?_eq_none.mp hfind y hy
        simpa using this
      refine ⟨le_rfl, hnd, hout, ?_, List.Sublist.refl _, fun x hx _ => hx,
        fun i h1 h2 => absurd h2 (by omega)⟩
      intro y hy
      have h1 := hbuf y hy
      exact ⟨lt_of_le_of_ne h1.1 (Ne.symm (hne y hy)), h1.2.1, h1.2.2⟩
    · have hxmem : x ∈ buf := List.mem_of_find?_eq_some hfind
      have hxidx : x.index = nxt := by
        have := List.find?_some hfind
        simpa using this
      have hxfacts := hbuf x hxmem
      have hnxt_lt_d : nxt < d := hxidx ▸ hxfacts.2.1
      have hxval : (input.map fn)[nxt]? = some x.value := hxidx ▸ hxfacts.2.2
      have hout' : out ++ [x.value] = (input.map fn).take (nxt + 1) := by
        rw [List.take_succ, hxval, hout]
        rfl
      have hbuf' : ∀ y ∈ buf.filter (fun y => y.index != nxt),
          nxt + 1 ≤ y.index ∧ y.index < d ∧
            (input.map fn)[y.index]? = some y.value := by
        intro y hy
        rcases List.mem_filter.mp hy with ⟨hy1, hy2⟩
        have h1 := hbuf y hy1
        have hne : y.index ≠ nxt := by simpa using hy2
        exact ⟨by omega, h1.2.1, h1.2.2⟩
      have hlen' : (buf.filter (fun y => y.index != nxt)).length ≤ fuel := by
        have : (buf.filter (fun y => y.index != nxt)).length < buf.length :=
          length_filter_lt _ buf x hxmem (by simpa using hxidx)
        omega
      have hnodup' : (keysOf (buf.filter (fun y => y.index != nxt))).Nodup :=
        hnodup.sublist (keysOf_sublist (List.filter_sublist _))
      have hrec := ih (buf.filter (fun y => y.index != nxt)) (nxt + 1)
        (out ++ [x.value]) hlen' hnxt_lt_d hdlen hout' hbuf' hnodup'
      have hred : drainBuffered (fuel + 1) buf nxt out =
          drainBuffered fuel (buf.filter (fun y => y.index != nxt)) (nxt + 1)
            (out ++ [x.value]) := by
        simp only [drainBuffered, hfind]
      rw [hred]
      refine ⟨by omega, hrec.2.1, hrec.2.2.1, hrec.2.2.2.1,
        (hrec.2.2.2.2.1).trans (List.filter_sublist _), ?_, ?_⟩
      · intro y hy hle
        have hyne : (y.index != nxt) = true := by
          have h0 := hrec.1
          simp only [bne_iff_ne]
          omega
        exact hrec.2.2.2.2.2.1 y (List.mem_filter.mpr ⟨hy, hyne⟩) hle
      · intro i h1 h2
        by_cases hi : i = nxt
        · subst hi
          exact List.mem_map.mpr ⟨x, hxmem, hxidx⟩
        · have hmem := hrec.2.2.2.2.2.2 i (by omega) h2
          have : i ∈ keysOf (buf.filter (fun y => y.index != nxt)) := hmem
          rcases List.mem_map.mp this with ⟨y, hy, hyi⟩
          exact List.mem_map.mpr ⟨y, (List.mem_filter.mp hy).1, hyi⟩

theorem enumItems_length (input : List String) :
    (enumItems input).length = input.length := by
  simp [enumItems]

theorem enumItems_getElem (input : List String) (i : Nat) :
    (enumItems input)[i]? = input[i]?.map (fun v => parItem.mk i v) := by
  simp [enumItems, List.getElem?_map, List.getElem?_enum, Option.map_map]
  rfl

theorem mcStep_inv (fn : String → String) (input : List String)
    (st : MCState) (a : MCAction) (d : Nat) (h : MCInv fn input d st) :
    ∃ d', MCInv fn input d' (mcStep fn st a) := by
  obtain ⟨hd, hnd, hsrc, hout, hinf, hbuf, hnodup, hcov⟩ := h
  cases a with
  | claim =>
    cases hs : st.source with
    | nil =>
      refine ⟨d, ?_⟩
      simp only [mcStep, hs]
      exact ⟨hd, hnd, hsrc, hout, hinf, hbuf, hnodup, hcov⟩
    | cons x rest =>
      have hdrop : (enumItems input).drop d = x :: rest := hsrc.symm.trans hs
      have hgot : (enumItems input)[d]? = some x := by
        have h0 : ((enumItems input).drop d)[0]? = some x := by
          rw [hdrop]; simp
        rwa [List.getElem?_drop, Nat.add_zero] at h0
      rw [enumItems_getElem] at hgot
      rcases Option.map_eq_some'.mp hgot with ⟨v, hv, hmk⟩
      have hxidx : x.index = d := by rw [← hmk]
      have hxval : x.value = v := by rw [← hmk]
      have hdlt : d < input.length := by
        by_contra hc
        push_neg at hc
        rw [List.getElem?_eq_none hc] at hv
        exact Option.noConfusion hv
      have hrest : rest = (enumItems input).drop (d + 1) := by
        have := congrArg List.tail hdrop
        simpa [List.tail_drop] using this.symm
      refine ⟨d + 1, ?_⟩
      simp only [mcStep, hs]
      refine ⟨by omega, show st.nextIdx ≤ d + 1 by omega, hrest, hout,
        ?_, ?_, ?_, ?_⟩
      · intro y hy
        replace hy : y ∈ st.inflight ++ [x] := hy
        rcases List.mem_append.mp hy with hy | hy
        · have h1 := hinf y hy
          exact ⟨h1.1, by omega, h1.2.2⟩
        · rcases List.mem_singleton.mp hy with rfl
          rw [hxidx, hxval]
          exact ⟨show st.nextIdx ≤ d by omega, by omega, hv⟩
      · intro y hy
        replace hy : y ∈ st.buffered := hy
        have h1 := hbuf y hy
        exact ⟨h1.1, by omega, h1.2.2⟩
      · show (keysOf (st.inflight ++ [x]) ++ keysOf st.buffered).Nodup
        have hkey : keysOf (st.inflight ++ [x])
            = keysOf st.inflight ++ [x.index] := List.map_append _ _ _
        have hperm : List.Perm
            (keysOf (st.inflight ++ [x]) ++ keysOf st.buffered)
            (d :: (keysOf st.inflight ++ keysOf st.buffered)) := by
          rw [hkey, hxidx]
          exact List.Perm.append_right _ (List.perm_append_singleton _ _)
        rw [hperm.nodup_iff]
        refine List.nodup_cons.mpr ⟨?_, hnodup⟩
        intro hdmem
        rcases List.mem_append.mp hdmem with h1 | h1
        · rcases List.mem_map.mp h1 with ⟨y, hy, hyi⟩
          have := (hinf y hy).2.1
          omega
        · rcases List.mem_map.mp h1 with ⟨y, hy, hyi⟩
          have := (hbuf y hy).2.1
          omega
      · intro i h1 h2
        replace h1 : st.nextIdx ≤ i := h1
        show i ∈ keysOf (st.inflight ++ [x]) ∨ i ∈ keysOf st.buffered
        have hkey : keysOf (st.inflight ++ [x])
            = keysOf st.inflight ++ [x.index] := List.map_append _ _ _
        by_cases hi : i < d
        · rcases hcov i h1 hi with h3 | h3
          · left
            rw [hkey]
            exact List.mem_append_left _ h3
          · right; exact h3
        · left
          have hieq : i = d := by omega
          subst hieq
          rw [hkey, hxidx]
          exact List.mem_append_right _ (List.mem_singleton.mpr rfl)
  | publish x =>
    by_cases hmem : x ∈ st.inflight
    · simp only [mcStep, if_pos hmem]
      have hxinf := hinf x hmem
      have hKIx : x.index ∈ keysOf st.inflight := List.mem_map.mpr ⟨x, hmem, rfl⟩
      have hnodups := List.nodup_append.mp hnodup
      set B := st.buffered ++ [parItem.mk x.index (fn x.value)] with hB
      set r := drainBuffered B.length B st.nextIdx st.out with hr
      have hkeyB : keysOf B = keysOf st.buffered ++ [x.index] := by
        rw [hB]
        exact List.map_append _ _ _
      have hbufB : ∀ y ∈ B, st.nextIdx ≤ y.index ∧ y.index < d ∧
          (input.map fn)[y.index]? = some y.value := by
        intro y hy
        rw [hB] at hy
        rcases List.mem_append.mp hy with hy | hy
        · have h1 := hbuf y hy
          exact ⟨by omega, h1.2.1, h1.2.2⟩
        · rcases List.mem_singleton.mp hy with rfl
          refine ⟨hxinf.1, hxinf.2.1, ?_⟩
          rw [List.getElem?_map, hxinf.2.2]
          rfl
      have hnodupB : (keysOf B).Nodup := by
        rw [hkeyB, (List.perm_append_singleton _ _).nodup_iff]
        refine List.nodup_cons.mpr ⟨?_, hnodups.2.1⟩
        intro hx
        exact hnodups.2.2 hKIx hx
      have hspec := drainBuffered_spec fn input d B.length B
        st.nextIdx st.out le_rfl hnd hd hout hbufB hnodupB
      rw [← hr] at hspec
      refine ⟨d, hd, hspec.2.1, hsrc, hspec.2.2.1, ?_, hspec.2.2.2.1, ?_, ?_⟩
      · intro y hy
        replace hy : y ∈ st.inflight.erase x := hy
        have hymem : y ∈ st.inflight := List.mem_of_mem_erase hy
        have h1 := hinf y hymem
        refine ⟨show r.2.1 ≤ y.index from ?_, h1.2.1, h1.2.2⟩
        by_contra hlt
        push_neg at hlt
        have hykey := hspec.2.2.2.2.2.2 y.index h1.1 hlt
        rw [hkeyB] at hykey
        rcases List.mem_append.mp hykey with h2 | h2
        · exact hnodups.2.2 (List.mem_map.mpr ⟨y, hymem, rfl⟩) h2
        · have hyx : y.index = x.index := List.mem_singleton.mp h2
          have hinfnodup : st.inflight.Nodup := List.Nodup.of_map _ hnodups.1
          have hyne : y ≠ x := ((hinfnodup.mem_erase_iff).mp hy).1
          exact hyne (List.inj_on_of_nodup_map hnodups.1 hymem hmem hyx)
      · show (keysOf (st.inflight.erase x) ++ keysOf r.1).Nodup
        have hsubKR : (keysOf r.1).Sublist (keysOf st.buffered ++ [x.index]) := by
          rw [← hkeyB]
          exact keysOf_sublist hspec.2.2.2.2.1
        have hsub2 := hsubKR.append_left (keysOf (st.inflight.erase x))
        refine List.Nodup.sublist hsub2 ?_
        have hperm : List.Perm
            (keysOf (st.inflight.erase x) ++ (keysOf st.buffered ++ [x.index]))
            (keysOf st.inflight ++ keysOf st.buffered) := by
          have hstep1 : List.Perm
              (keysOf (st.inflight.erase x) ++ (keysOf st.buffered ++ [x.index]))
              (keysOf (st.inflight.erase x) ++ (x.index :: keysOf st.buffered)) :=
            List.Perm.append_left _ (List.perm_append_singleton _ _)
          have hstep2 : List.Perm
              (keysOf (st.inflight.erase x) ++ (x.index :: keysOf st.buffered))
              (x.index :: (keysOf (st.inflight.erase x) ++ keysOf st.buffered)) :=
            List.perm_middle
          have hKI : List.Perm (keysOf st.inflight)
              (x.index :: keysOf (st.inflight.erase x)) := by
            have := (List.perm_cons_erase hmem).map parItem.index
            simpa [keysOf] using this
          have hstep3 : List.Perm
              (x.index :: (keysOf (st.inflight.erase x) ++ keysOf st.buffered))
              (keysOf st.inflight ++ keysOf st.buffered) :=
            (hKI.append_right (keysOf st.buffered)).symm
          exact (hstep1.trans hstep2).trans hstep3
        rw [hperm.nodup_iff]
        exact hnodup
      · intro i h1 h2
        replace h1 : r.2.1 ≤ i := h1
        replace h2 : i < d := h2
        have h0 : st.nextIdx ≤ i := le_trans hspec.1 h1
        show i ∈ keysOf (st.inflight.erase x) ∨ i ∈ keysOf r.1
        rcases hcov i h0 h2 with h3 | h3
        · have hKI : List.Perm (keysOf st.inflight)
              (x.index :: keysOf (st.inflight.erase x)) := by
            have := (List.perm_cons_erase hmem).map parItem.index
            simpa [keysOf] using this
          rcases List.mem_cons.mp (hKI.mem_iff.mp h3) with h4 | h4
          · right
            have hnew : parItem.mk x.index (fn x.value) ∈ B := by
              rw [hB]
              exact List.mem_append_right _ (List.mem_singleton.mpr rfl)
            rw [h4] at h1
            have hin := hspec.2.2.2.2.2.1 _ hnew h1
            exact List.mem_map.mpr ⟨_, hin, h4.symm⟩
          · left; exact h4
        · right
          rcases List.mem_map.mp h3 with ⟨y, hy, hyi⟩
          have hyB : y ∈ B := by
            rw [hB]
            exact List.mem_append_left _ hy
          have hin := hspec.2.2.2.2.2.1 y hyB (by omega)
          exact List.mem_map.mpr ⟨y, hin, hyi⟩
    · simp only [mcStep, if_neg hmem]
      exact ⟨d, hd, hnd, hsrc, hout, hinf, hbuf, hnodup, hcov⟩


theorem mcExec_inv (fn : String → String) (input : List String) :
    ∀ (acts : List MCAction) (st : MCState) (d : Nat),
      MCInv fn input d st →
      ∃ d', MCInv fn input d' (acts.foldl (mcStep fn) st) := by
  intro acts
  induction acts with
  | nil => intro st d h; exact ⟨d, h⟩
  | cons a acts ih =>
    intro st d h
    rcases mcStep_inv fn input st a d h with ⟨d', h'⟩
    exact ih _ d' h'

theorem mcInit_inv (fn : String → String) (input : List String) :
    MCInv fn input 0 (mcInit input) := by
  refine ⟨Nat.zero_le _, le_rfl, by simp [mcInit], by simp [mcInit],
    ?_, ?_, ?_, ?_⟩
  · intro y hy; simp [mcInit] at hy
  · intro y hy; simp [mcInit] at hy
  · simp [mcInit, keysOf]
  · intro i h1 h2; omega

/-- C1: the ordered concurrent mapper.  Schedules of `claim`/`publish`
actions over-approximate every interleaving of `N ≥ 1` workers with
arbitrary per-item latency; a run that has dispatched its whole source
and has no in-flight item (the state in which `wg.Wait()` lets the stage
return) has emitted `fn` of every input item exactly once, in exactly
the original input order. -/
theorem mapConcurrent_ordered (fn : String → String) (input : List String)
    (acts : List MCAction)
    (hsrc : (mcExec fn input acts).source = [])
    (hinf : (mcExec fn input acts).inflight = []) :
    (mcExec fn input acts).out = input.map fn := by
  have hexec : mcExec fn input acts = acts.foldl (mcStep fn) (mcInit input) := rfl
  rw [hexec] at hsrc hinf ⊢
  rcases mcExec_inv fn input acts (mcInit input) 0 (mcInit_inv fn input) with
    ⟨d, hd, hnd, hs, hout, _, hbuf, _, hcov⟩
  have hdrop : (enumItems input).drop d = [] := hs.symm.trans hsrc
  have hdlen : d = input.length := by
    have := congrArg List.length hdrop
    rw [List.length_drop, enumItems_length] at this
    simp at this
    omega
  have hnext : (acts.foldl (mcStep fn) (mcInit input)).nextIdx
      = input.length := by
    by_contra hne
    have hlt : (acts.foldl (mcStep fn) (mcInit input)).nextIdx < d := by omega
    rcases hcov _ le_rfl hlt with h3 | h3
    · rw [hinf] at h3
      simp [keysOf] at h3
    · rcases List.mem_map.mp h3 with ⟨y, hy, hyi⟩
      have := (hbuf y hy).1
      omega
  rw [hout, hnext]
  have hlen : (input.map fn).length = input.length := by simp
  rw [← hlen, List.take_length]

/-- Witness for C1: two items, two claims, results published out of
order (item 1 first); the final state is quiescent and the output is the
mapped input in input order. -/
theorem mapConcurrent_ordered_witness :
    (mcExec (fun s => s ++ "!") ["a", "b"]
      [.claim, .claim, .publish ⟨1, "b"⟩, .publish ⟨0, "a"⟩]).source = [] ∧
    (mcExec (fun s => s ++ "!") ["a", "b"]
      [.claim, .claim, .publish ⟨1, "b"⟩, .publish ⟨0, "a"⟩]).inflight = [] ∧
    (mcExec (fun s => s ++ "!") ["a", "b"]
      [.claim, .claim, .publish ⟨1, "b"⟩, .publish ⟨0, "a"⟩]).out
      = ["a", "b"].map (fun s => s ++ "!") :=
  ⟨by decide, by decide,
    mapConcurrent_ordered (fun s => s ++ "!") ["a", "b"]
      [.claim, .claim, .publish ⟨1, "b"⟩, .publish ⟨0, "a"⟩]
      (by decide) (by decide)⟩

end MapConcurrentProofs

section DetSampleProofs

open PipePkg

theorem detStep_eq (hash : Nat → String → String) (n : Nat) (i0 : Nat)
    (h : List sample) (s : String) :
    detStep hash n (i0, h) s =
      (i0 + 1,
        if n < (sInsert ⟨hash (i0 + 1) s, s⟩ h).length then
          (sInsert ⟨hash (i0 + 1) s, s⟩ h).tail
        else sInsert ⟨hash (i0 + 1) s, s⟩ h) := rfl

theorem sInsert_perm (x : sample) :
    ∀ l : List sample, List.Perm (sInsert x l) (x :: l) := by
  intro l
  induction l with
  | nil => exact List.Perm.refl _
  | cons y rest ih =>
    unfold sInsert
    by_cases hc : x.hash < y.hash
    · rw [if_pos hc]
    · rw [if_neg hc]
      exact (ih.cons y).trans (List.Perm.swap x y rest)

theorem sInsert_length (x : sample) (l : List sample) :
    (sInsert x l).length = l.length + 1 := by
  rw [(sInsert_perm x l).length_eq]
  rfl

theorem sInsert_mem {x z : sample} {l : List sample} :
    z ∈ sInsert x l ↔ z = x ∨ z ∈ l := by
  rw [(sInsert_perm x l).mem_iff]
  exact List.mem_cons

theorem sInsert_sorted (x : sample) :
    ∀ l : List sample, hashSorted l → hashSorted (sInsert x l) := by
  intro l
  induction l with
  | nil => intro _; simp [sInsert, hashSorted]
  | cons y rest ih =>
    intro hs
    rcases (List.pairwise_cons.mp hs) with ⟨hy, hrest⟩
    unfold sInsert
    by_cases hc : x.hash < y.hash
    · rw [if_pos hc]
      refine List.pairwise_cons.mpr ⟨?_, hs⟩
      intro z hz
      rcases List.mem_cons.mp hz with rfl | hz
      · exact le_of_lt hc
      · exact le_trans (le_of_lt hc) (hy z hz)
    · rw [if_neg hc]
      refine List.pairwise_cons.mpr ⟨?_, ih hrest⟩
      intro z hz
      rcases sInsert_mem.mp hz with rfl | hz
      · exact le_of_not_lt hc
      · exact hy z hz

theorem sorted_head_le {m : sample} {t : List sample}
    (hs : hashSorted (m :: t)) : ∀ z ∈ m :: t, m.hash ≤ z.hash := by
  intro z hz
  rcases List.mem_cons.mp hz with rfl | hz
  · exact le_refl _
  · exact (List.pairwise_cons.mp hs).1 z hz

theorem entriesFrom_length (hash : Nat → String → String) :
    ∀ (l : List String) (i0 : Nat), (entriesFrom hash i0 l).length = l.length := by
  intro l
  induction l with
  | nil => intro i0; rfl
  | cons s rest ih =>
    intro i0
    show (entriesFrom hash (i0 + 1) rest).length + 1 = rest.length + 1
    rw [ih (i0 + 1)]

theorem entriesFrom_item_mem (hash : Nat → String → String) :
    ∀ (l : List String) (i0 : Nat) (r : sample),
      r ∈ entriesFrom hash i0 l → r.item ∈ l := by
  intro l
  induction l with
  | nil => intro i0 r hr; exact absurd hr (List.not_mem_nil r)
  | cons s rest ih =>
    intro i0 r hr
    rcases List.mem_cons.mp hr with rfl | hr
    · exact List.mem_cons_self _ _
    · exact List.mem_cons_of_mem _ (ih (i0 + 1) r hr)

theorem detLoop_spec (hash : Nat → String → String) (n : Nat) :
    ∀ (l : List String) (i0 : Nat) (h ev : List sample),
      hashSorted h → h.length = min i0 n →
      (∀ e ∈ ev, ∀ r ∈ h, e.hash ≤ r.hash) →
      (h.length < n → ev = []) →
      (l.foldl (detStep hash n) (i0, h)).1 = i0 + l.length ∧
      ∃ ev' : List sample,
        hashSorted (l.foldl (detStep hash n) (i0, h)).2 ∧
        (l.foldl (detStep hash n) (i0, h)).2.length = min (i0 + l.length) n ∧
        List.Perm ((h ++ ev) ++ entriesFrom hash i0 l)
          ((l.foldl (detStep hash n) (i0, h)).2 ++ ev') ∧
        (∀ e ∈ ev', ∀ r ∈ (l.foldl (detStep hash n) (i0, h)).2,
          e.hash ≤ r.hash) ∧
        ((l.foldl (detStep hash n) (i0, h)).2.length < n → ev' = []) := by
  intro l
  induction l with
  | nil =>
    intro i0 h ev hs hlen hb h0
    refine ⟨by simp, ev, hs, by simpa using hlen, ?_, hb, h0⟩
    simp [entriesFrom]
  | cons s rest ih =>
    intro i0 h ev hs hlen hb h0
    rw [List.foldl_cons, detStep_eq]
    have hp := sInsert_perm ⟨hash (i0 + 1) s, s⟩ h
    have hl1 : (sInsert ⟨hash (i0 + 1) s, s⟩ h).length = min i0 n + 1 := by
      rw [sInsert_length, hlen]
    have hs1 : hashSorted (sInsert ⟨hash (i0 + 1) s, s⟩ h) := sInsert_sorted _ h hs
    have hent : entriesFrom hash i0 (s :: rest)
        = ⟨hash (i0 + 1) s, s⟩ :: entriesFrom hash (i0 + 1) rest := rfl
    by_cases hov : n < (sInsert ⟨hash (i0 + 1) s, s⟩ h).length
    · rw [if_pos hov]
      rcases hh1 : sInsert ⟨hash (i0 + 1) s, s⟩ h with _ | ⟨m, t⟩
      · rw [hh1] at hl1
        simp only [List.length_nil] at hl1
        omega
      · rw [hh1] at hp hs1 hl1 hov
        simp only [List.tail_cons]
        have hminn : min i0 n = n := by
          simp only [List.length_cons] at hl1 hov
          omega
        have htl : t.length = n := by
          simp only [List.length_cons] at hl1
          omega
        have hmle : ∀ z ∈ m :: t, m.hash ≤ z.hash := sorted_head_le hs1
        have hxin : (⟨hash (i0 + 1) s, s⟩ : sample) ∈ m :: t :=
          hp.mem_iff.mpr (List.mem_cons_self _ _)
        have hev2 : ∀ e ∈ ev ++ [m], ∀ r ∈ t, e.hash ≤ r.hash := by
          intro e he r hr
          have hrh1 : r ∈ m :: t := List.mem_cons_of_mem m hr
          rcases List.mem_append.mp he with he | he
          · rcases List.mem_cons.mp (hp.mem_iff.mp hrh1) with hrx | hrh
            · by_cases hxh : (⟨hash (i0 + 1) s, s⟩ : sample) ∈ h
              · rw [hrx]
                exact hb e he _ hxh
              · have hmne : m ≠ (⟨hash (i0 + 1) s, s⟩ : sample) := by
                  intro hmeq
                  have hcnt := hp.count_eq (⟨hash (i0 + 1) s, s⟩ : sample)
                  have hxt : (⟨hash (i0 + 1) s, s⟩ : sample) ∈ t := by
                    rw [← hrx]; exact hr
                  have hone : 1 ≤ List.count
                      (⟨hash (i0 + 1) s, s⟩ : sample) t :=
                    List.one_le_count_iff.mpr hxt
                  rw [hmeq, List.count_cons_self, List.count_cons_self,
                    List.count_eq_zero.mpr hxh] at hcnt
                  omega
                have hmh : m ∈ h := by
                  rcases List.mem_cons.mp
                      (hp.mem_iff.mp (List.mem_cons_self m t)) with h1 | h1
                  · exact absurd h1 hmne
                  · exact h1
                have hle1 : e.hash ≤ m.hash := hb e he m hmh
                have hle2 : m.hash ≤ r.hash := by
                  rw [hrx]; exact hmle _ hxin
                exact le_trans hle1 hle2
            · exact hb e he r hrh
          · rcases List.mem_singleton.mp he with rfl
            exact hmle r hrh1
        have hxx := ih (i0 + 1) t (ev ++ [m]) (List.Pairwise.of_cons hs1)
          (by rw [htl]; omega) hev2 (by rw [htl]; omega)
        refine ⟨by rw [hxx.1]; simp only [List.length_cons]; omega, ?_⟩
        rcases hxx.2 with ⟨ev', he1, he2, he3, he4, he5⟩
        refine ⟨ev', he1,
          by rw [he2]; simp only [List.length_cons]; congr 1; omega, ?_, he4, he5⟩
        refine List.Perm.trans ?_ he3
        rw [hent, List.append_cons (h ++ ev) _ (entriesFrom hash (i0 + 1) rest)]
        refine List.Perm.append_right _ ?_
        have p1 : List.Perm ((h ++ ev) ++ [⟨hash (i0 + 1) s, s⟩])
            ((⟨hash (i0 + 1) s, s⟩ : sample) :: (h ++ ev)) :=
          List.perm_append_singleton _ _
        have p3 : List.Perm ((⟨hash (i0 + 1) s, s⟩ : sample) :: (h ++ ev))
            ((m :: t) ++ ev) := (hp.append_right ev).symm
        have p4 : List.Perm ((m :: t) ++ ev) ((t ++ ev) ++ [m]) :=
          (List.perm_append_singleton m (t ++ ev)).symm
        have p5 : (t ++ ev) ++ [m] = t ++ (ev ++ [m]) := List.append_assoc _ _ _
        exact ((p1.trans p3).trans p4).trans (p5 ▸ List.Perm.refl _)
    · rw [if_neg hov]
      have hi0n : i0 < n := by
        rw [hl1] at hov
        omega
      have hev0 : ev = [] := h0 (by omega)
      have hxx := ih (i0 + 1) (sInsert ⟨hash (i0 + 1) s, s⟩ h) []
        hs1 (by rw [hl1]; omega) (by simp) (by simp)
      refine ⟨by rw [hxx.1]; simp only [List.length_cons]; omega, ?_⟩
      rcases hxx.2 with ⟨ev', he1, he2, he3, he4, he5⟩
      rw [List.append_nil] at he3
      refine ⟨ev', he1,
        by rw [he2]; simp only [List.length_cons]; congr 1; omega, ?_, he4, he5⟩
      refine List.Perm.trans ?_ he3
      rw [hev0, List.append_nil, hent,
        List.append_cons h _ (entriesFrom hash (i0 + 1) rest)]
      refine List.Perm.append_right _ ?_
      exact (List.perm_append_singleton _ _).trans hp.symm


/-- C7: the deterministic hash-ranked sampler keeps, after any input, a
structure of at most `k` entries (exactly `min(seen, k)`), sorted by
ascending hash; the retained entries together with the evicted ones are
exactly the scored `(index, item)` entries of the input, every evicted
entry's hash is at most every retained entry's hash (so the structure
holds the `k` largest hashes seen), `Sample` emits exactly the retained
items after the input exhausts, and when fewer than `k` items were read
all of them are retained. -/
theorem det_sample_k_largest (hash : Nat → String → String) (n : Nat)
    (input : List String) :
    (detHeap hash n input).length = min input.length n ∧
    hashSorted (detHeap hash n input) ∧
    (∃ evicted : List sample,
      List.Perm (entriesFrom hash 0 input) (detHeap hash n input ++ evicted) ∧
      ∀ e ∈ evicted, ∀ r ∈ detHeap hash n input, e.hash ≤ r.hash) ∧
    Sample hash n input = (detHeap hash n input).map sample.item ∧
    (input.length ≤ n →
      List.Perm (detHeap hash n input) (entriesFrom hash 0 input)) := by
  have hspec := detLoop_spec hash n input 0 [] []
    (by simp [hashSorted]) (by simp) (by simp) (by simp)
  rcases hspec with ⟨h1, ev, hs, hlen, hperm, hb, hev0⟩
  have hdh : (input.foldl (detStep hash n) (0, [])).2 = detHeap hash n input := rfl
  rw [hdh] at hs hlen hperm hb hev0
  have hp2 : List.Perm (entriesFrom hash 0 input)
      (detHeap hash n input ++ ev) := by simpa using hperm
  have hlen2 : (detHeap hash n input).length = min input.length n := by
    rw [hlen]
    congr 1
    omega
  refine ⟨hlen2, hs, ⟨ev, hp2, hb⟩, rfl, ?_⟩
  intro hle
  have hlene := hp2.length_eq
  rw [List.length_append, entriesFrom_length] at hlene
  have hevnil : ev = [] := by
    refine List.length_eq_zero.mp ?_
    omega
  subst hevnil
  rw [List.append_nil] at hp2
  exact hp2.symm

/-- Witness for C7: with two items and `k = 2` every item is retained,
so the retained entries are a permutation of the scored entries. -/
theorem det_sample_k_largest_witness :
    List.Perm
      (detHeap (fun i _ => String.mk (List.replicate i 'z')) 2 ["b", "a"])
      (entriesFrom (fun i _ => String.mk (List.replicate i 'z')) 0 ["b", "a"]) :=
  (det_sample_k_largest (fun i _ => String.mk (List.replicate i 'z'))
    2 ["b", "a"]).2.2.2.2 (by decide)

/-- C8: deterministic sampling is reproducible: the selected subset is a
pure function of `(k, input sequence)` (and of the fixed hash function)
— identical inputs yield the identical output, and every selected item
is an item of the input. -/
theorem det_sample_reproducible (hash : Nat → String → String) (n : Nat)
    (input1 input2 : List String) (h : input1 = input2) :
    Sample hash n input1 = Sample hash n input2 ∧
    ∀ s ∈ Sample hash n input1, s ∈ input1 := by
  subst h
  refine ⟨rfl, ?_⟩
  intro s hsmem
  have hsmem' : s ∈ (detHeap hash n input1).map sample.item := hsmem
  rcases List.mem_map.mp hsmem' with ⟨r, hr, hri⟩
  have hspec := detLoop_spec hash n input1 0 [] []
    (by simp [hashSorted]) (by simp) (by simp) (by simp)
  rcases hspec.2 with ⟨ev, _, _, hperm, _, _⟩
  have hdh : (input1.foldl (detStep hash n) (0, [])).2
      = detHeap hash n input1 := rfl
  rw [hdh] at hperm
  have hp2 : List.Perm (entriesFrom hash 0 input1)
      (detHeap hash n input1 ++ ev) := by simpa using hperm
  have hrent : r ∈ entriesFrom hash 0 input1 :=
    hp2.mem_iff.mpr (List.mem_append_left _ hr)
  have hitem := entriesFrom_item_mem hash input1 0 r hrent
  rw [← hri]
  exact hitem

/-- Witness for C8 at a concrete input: the two runs coincide and every
selected item comes from the input. -/
theorem det_sample_reproducible_witness :
    Sample (fun i _ => String.mk (List.replicate i 'z')) 1 ["a", "b"]
      = Sample (fun i _ => String.mk (List.replicate i 'z')) 1 ["a", "b"] ∧
    ∀ s ∈ Sample (fun i _ => String.mk (List.replicate i 'z')) 1 ["a", "b"],
      s ∈ ["a", "b"] :=
  det_sample_reproducible (fun i _ => String.mk (List.replicate i 'z'))
    1 ["a", "b"] ["a", "b"] rfl

end DetSampleProofs
